import Mathlib

/-!
# Verification of the Mistri-AI retrieval core

A shallow embedding, in Lean 4, of the retrieval core of the Mistri-AI
repository: the intent router (`detect_intent` in `backend/main.py`), the
ingestion pipeline (`RAGIngestor.ingest_error_codes` in
`backend/rag_ingest.py`), and the retrieval search (`search_manual` of
`backend/rag_retrieve.py`, whose source is absent and is therefore modelled
from the design document).

Strings are modelled as lists of characters; the ASCII fragment is what the
knowledge base and the router's regular expression operate on.  The external
embedder is modelled as an explicit function `String → Option V` (`none` is
an embedding failure); vectors stay abstract in the ingestion model and are
rational-valued lists in the retrieval model, so every definition is
executable and decidable.
-/

namespace Mistri

/-! ## Category constants (backend/config.py)

`AWSConfig` pins the three category labels used by the semantic router and
the ingestor. -/

def CATEGORY_ERROR_CODES : String := "ERROR_CODES"

def CATEGORY_SCHEMATICS : String := "SCHEMATICS"

def CATEGORY_GENERAL : String := "GENERAL"

/-! ## Character classes

`backend/main.py` matches the regular expression `\b[A-Z]{1,3}\d?\b`
against `text.upper()`.  We model the ASCII character classes involved:
`[A-Z]`, `\d` = `[0-9]`, and the word class `\w` = `[A-Za-z0-9_]` that
defines the word boundary `\b`.  Python's `str.upper`/`str.lower` agree
with `Char.toUpper`/`Char.toLower` on ASCII. -/

def isUpperLetter (c : Char) : Bool := 'A' ≤ c && c ≤ 'Z'

def isLowerLetter (c : Char) : Bool := 'a' ≤ c && c ≤ 'z'

def isDigitChar (c : Char) : Bool := '0' ≤ c && c ≤ '9'

def isWordChar (c : Char) : Bool :=
  isUpperLetter c || isLowerLetter c || isDigitChar c || c == '_'

/-! ## The error-code regular expression (backend/main.py, line 92)

`re.search(r'\b[A-Z]{1,3}\d?\b', text)` is rendered structurally.  A `\b`
holds between the start of the string (or a non-word character) and a word
character, and symmetrically at the end.  `re.search` tries every start
position left to right; at a given position the pattern matches if some
choice of 1–3 letters followed by an optional digit lands on a closing
word boundary. -/

/-- The left word boundary `\b`: satisfied at the start of the string
(`prev = none`) or after a non-word character. -/
def leftBoundary : Option Char → Bool
  | none => true
  | some c => !isWordChar c

/-- The right word boundary `\b`: satisfied at the end of the string or
before a non-word character. -/
def rightBoundary : List Char → Bool
  | [] => true
  | c :: _ => !isWordChar c

/-- The tail of the pattern, `\d?\b`: either the boundary holds here, or
one digit is consumed and the boundary holds after it. -/
def digitTail (s : List Char) : Bool :=
  rightBoundary s ||
    (match s with
     | d :: rest => isDigitChar d && rightBoundary rest
     | [] => false)

/-- The core `[A-Z]{1,3}\d?\b` anchored at the head of `s`: one, two or
three uppercase letters, then `digitTail`. -/
def matchCore (s : List Char) : Bool :=
  match s with
  | c1 :: r1 =>
    isUpperLetter c1 &&
      (digitTail r1 ||
        (match r1 with
         | c2 :: r2 =>
           isUpperLetter c2 &&
             (digitTail r2 ||
               (match r2 with
                | c3 :: r3 => isUpperLetter c3 && digitTail r3
                | [] => false))
         | [] => false))
  | [] => false

/-- Scan over all start positions, as `re.search` does: try the anchored
pattern at every suffix, carrying the preceding character for the left
`\b`. -/
def searchFrom (prev : Option Char) (s : List Char) : Bool :=
  (leftBoundary prev && matchCore s) ||
    (match s with
     | c :: rest => searchFrom (some c) rest
     | [] => false)

/-- Whether `re.search(r'\b[A-Z]{1,3}\d?\b', s)` succeeds. -/
def errorCodeSearch (s : List Char) : Bool := searchFrom none s

/-! ## Keyword scan (backend/main.py, lines 98–99)

`any(keyword in text.lower() for keyword in error_keywords)`: plain
substring containment. -/

/-- Tests that `pat` is an initial segment of `s`. -/
def leadsList (pat s : List Char) : Bool :=
  match pat, s with
  | [], _ => true
  | _ :: _, [] => false
  | p :: ps, c :: cs => p == c && leadsList ps cs

/-- Python's `pat in s`: `pat` occurs contiguously somewhere in `s`. -/
def containsSub (pat : List Char) (s : List Char) : Bool :=
  leadsList pat s ||
    (match s with
     | _ :: cs => containsSub pat cs
     | [] => false)

/-- The fixed keyword list of `detect_intent`. -/
def errorKeywords : List (List Char) :=
  ["error".toList, "code".toList, "display".toList, "showing".toList,
   "flashing".toList]

/-! ## The intent router (backend/main.py, `detect_intent`) -/

/-- The router `detect_intent(text, has_image)`: image ⇒ SCHEMATICS; else an
error-code-shaped token in the uppercased text ⇒ ERROR_CODES; else an
error keyword in the lowercased text ⇒ ERROR_CODES; else no restriction. -/
def detect_intent (text : List Char) (has_image : Bool) : Option String :=
  if has_image then
    some CATEGORY_SCHEMATICS
  else if errorCodeSearch (text.map Char.toUpper) then
    some CATEGORY_ERROR_CODES
  else if errorKeywords.any (fun kw => containsSub kw (text.map Char.toLower)) then
    some CATEGORY_ERROR_CODES
  else
    none

/-! ## Spec-side formulation of the token rule

The design document reads the regular expression as: the text "contains a
token matching the pattern 1 to 3 uppercase letters, optionally followed by
a single digit, as a whole word", and asks for it to be expressed as an
explicit tokenizer/matcher.  Tokens are the maximal runs of word
characters. -/

/-- A token is error-code shaped: 1–3 uppercase letters optionally followed
by a single digit. -/
def tokenShaped (t : List Char) : Bool :=
  match t with
  | [c1] => isUpperLetter c1
  | [c1, c2] => isUpperLetter c1 && (isUpperLetter c2 || isDigitChar c2)
  | [c1, c2, c3] =>
    isUpperLetter c1 && isUpperLetter c2 && (isUpperLetter c3 || isDigitChar c3)
  | [c1, c2, c3, c4] =>
    isUpperLetter c1 && isUpperLetter c2 && isUpperLetter c3 && isDigitChar c4
  | _ => false

/-- The maximal runs of word characters of a string, in order. -/
def wordTokens : List Char → List (List Char)
  | [] => []
  | c :: cs =>
    if isWordChar c then
      (c :: cs.takeWhile isWordChar) :: wordTokens (cs.dropWhile isWordChar)
    else
      wordTokens cs
termination_by s => s.length
decreasing_by
  · simpa using Nat.lt_succ_of_le (List.dropWhile_sublist _).length_le
  · simp

/-- The router as the design document words it: same cascade, with the
regular-expression rule read as "some whole word token is error-code
shaped". -/
def route_spec (text : List Char) (has_image : Bool) : Option String :=
  if has_image then
    some CATEGORY_SCHEMATICS
  else if (wordTokens (text.map Char.toUpper)).any tokenShaped then
    some CATEGORY_ERROR_CODES
  else if errorKeywords.any (fun kw => containsSub kw (text.map Char.toLower)) then
    some CATEGORY_ERROR_CODES
  else
    none

/-- The string decomposition both readings of the rule describe: `s` splits
as `a ++ t ++ b` where `t` is error-code shaped, everything left of `t`
ends in a non-word character (or is empty) and everything right of `t`
starts with one (or is empty) — i.e. `t` occurs as a whole word. -/
def hasShapedWordToken (s : List Char) : Prop :=
  ∃ a t b, s = a ++ t ++ b ∧
    (∀ c, a.getLast? = some c → isWordChar c = false) ∧
    (∀ c, b.head? = some c → isWordChar c = false) ∧
    tokenShaped t = true

/-! ## The ingestion pipeline (backend/rag_ingest.py, `RAGIngestor`)

The pipeline loads raw error records, embeds each one, and builds three
artifacts: the FAISS vector index (the successful embeddings, stacked in
order), the metadata list, and the category index.  The Bedrock embedder is
modelled as a function `String → Option V`, `none` being a failed
`generate_embedding` call (the `except` branch of the per-record loop);
the vector payload type `V` stays abstract. -/

/-- One raw input record of `load_error_codes`: the `code`, `name` and
`description` columns of the CSV. -/
structure ErrorRecord where
  code : String
  name : String
  description : String
deriving DecidableEq, Repr

/-- One entry of the metadata list built in `ingest_error_codes`. -/
structure MetaRec where
  id : Nat
  category : String
  type : String
  code : String
  name : String
  description : String
  text : String
deriving DecidableEq, Repr

/-- The formatter `format_error_text`: the Python f-string producing
`Error <code>: <name> - <description>`. -/
def format_error_text (error : ErrorRecord) : String :=
  "Error " ++ error.code ++ ": " ++ error.name ++ " - " ++ error.description

/-- The metadata entry appended for input record `error` at enumerate
index `i` (rag_ingest.py lines 173–181). -/
def mkMetaRec (i : Nat) (error : ErrorRecord) : MetaRec :=
  { id := i
    category := CATEGORY_ERROR_CODES
    type := "text"
    code := error.code
    name := error.name
    description := error.description
    text := format_error_text error }

/-- The in-memory result of a successful build: the stacked embeddings
(rows of the FAISS index in append order), the metadata list, and the
category index as an association list over the three fixed labels. -/
structure Store (V : Type) where
  index : List V
  metadata : List MetaRec
  category_index : List (String × List Nat)
deriving DecidableEq, Repr

/-- The per-record loop of `ingest_error_codes` (lines 160–188):
`for i, error in enumerate(error_codes)` starting at enumerate index `i`.
On embedding success the embedding, the metadata entry `mkMetaRec i error`
and the id `i` are appended to the three accumulating lists; on failure
the record is logged and skipped (`continue`). -/
def ingestLoop (embedf : String → Option V) (i : Nat) :
    List ErrorRecord → List V × List MetaRec × List Nat
  | [] => ([], [], [])
  | error :: rest =>
    let (es, ms, ids) := ingestLoop embedf (i + 1) rest
    match embedf (format_error_text error) with
    | none => (es, ms, ids)
    | some v => (v :: es, mkMetaRec i error :: ms, i :: ids)

/-- The pipeline `ingest_error_codes` up to (but not including) the file writes: run the
loop over all records; if no embedding succeeded, raise
`ValueError("No embeddings were generated successfully")`; otherwise stack
the embeddings and assemble the three artifacts.  The category index is the
dict initialised at lines 154–158, whose `ERROR_CODES` entry received every
successful id and whose other two entries were never touched. -/
def ingest_error_codes (embedf : String → Option V) (error_codes : List ErrorRecord) :
    Except String (Store V) :=
  let (es, ms, ids) := ingestLoop embedf 0 error_codes
  if es.isEmpty then
    .error "No embeddings were generated successfully"
  else
    .ok { index := es
          metadata := ms
          category_index :=
            [(CATEGORY_ERROR_CODES, ids), (CATEGORY_SCHEMATICS, []),
             (CATEGORY_GENERAL, [])] }

/-! ## Persistence (rag_ingest.py, lines 222–234)

The three artifacts live in three files under the vector-store directory.
A file holds `none` when absent.  `ingest_error_codes` writes them one
after the other, each directly at its final path: `faiss.write_index`,
then `json.dump(metadata)`, then `json.dump(category_index)`. -/

/-- The on-disk state of the store directory: the three artifact files,
each either absent or holding a value. -/
structure DiskState (V : Type) where
  index_file : Option (List V)
  metadata_file : Option (List MetaRec)
  category_index_file : Option (List (String × List Nat))
deriving DecidableEq, Repr

/-- Write of the vector index: `faiss.write_index(index, self.index_file)`
(line 223). -/
def write_index_file (d : DiskState V) (x : List V) : DiskState V :=
  { d with index_file := some x }

/-- Write of the metadata: `json.dump(metadata, f)` into
`self.metadata_file` (lines 227–228). -/
def write_metadata_file (d : DiskState V) (x : List MetaRec) : DiskState V :=
  { d with metadata_file := some x }

/-- Write of the category index: `json.dump(category_index, f)` into
`self.category_index_file` (lines 232–233). -/
def write_category_index_file (d : DiskState V) (x : List (String × List Nat)) :
    DiskState V :=
  { d with category_index_file := some x }

/-- The save section of `ingest_error_codes`: the three writes in source
order. -/
def saveStore (d : DiskState V) (st : Store V) : DiskState V :=
  write_category_index_file
    (write_metadata_file (write_index_file d st.index) st.metadata)
    st.category_index

/-- Every state of the store directory observable while the save section
runs: before any write, and after each of the three writes. -/
def saveStates (d : DiskState V) (st : Store V) : List (DiskState V) :=
  [d,
   write_index_file d st.index,
   write_metadata_file (write_index_file d st.index) st.metadata,
   saveStore d st]

/-- The whole of `ingest_error_codes` as a disk transformer: when the build
raises (zero successful embeddings, line 190–191), the raise happens before
any write, so the directory is untouched; otherwise the store is saved. -/
def runIngest (embedf : String → Option V) (error_codes : List ErrorRecord)
    (d : DiskState V) : DiskState V × Except String Unit :=
  match ingest_error_codes embedf error_codes with
  | .error e => (d, .error e)
  | .ok st => (saveStore d st, .ok ())

/-! ## The retrieval search (backend/rag_retrieve.py, `search_manual`)

The source file `rag_retrieve.py` is not part of the sources at hand (only
its caller `backend/main.py` and the design document describe it), so the
search is modelled from the design document, §4.3.  Vectors are lists of
rationals so that distance and similarity computations stay exact and
decidable. -/

/-- A returned match: a record annotated with its similarity score
(design document §4.3, "Return an ordered sequence of Match records"). -/
structure RagMatch where
  id : Nat
  code : String
  name : String
  description : String
  similarity_score : ℚ
deriving DecidableEq, Repr

/-- Lookup of a category's partition in the category index. -/
def lookupAssoc (l : List (String × List Nat)) (k : String) : Option (List Nat) :=
  match l with
  | [] => none
  | (k', v) :: rest => if k' = k then some v else lookupAssoc rest k

/-- Squared Euclidean (L2) distance between two vectors, the FAISS
`IndexFlatL2` metric. -/
def l2dist (u v : List ℚ) : ℚ :=
  (List.zipWith (fun a b => (a - b) * (a - b)) u v).sum

/-- The fixed monotonic distance-to-similarity transform of the design
document: `similarity = 1 / (1 + distance)`. -/
def similarity (d : ℚ) : ℚ := 1 / (1 + d)

/-- Ranking comparator: higher similarity first, ties broken by ascending
id. -/
def rankLE (m1 m2 : RagMatch) : Bool :=
  (decide (m2.similarity_score < m1.similarity_score)) ||
    ((m1.similarity_score == m2.similarity_score) && (m1.id ≤ m2.id))

/-- Insert into a list sorted by `le`. -/
def insertRanked (le : α → α → Bool) (x : α) : List α → List α
  | [] => [x]
  | y :: ys => if le x y then x :: y :: ys else y :: insertRanked le x ys

/-- Insertion sort by `le`. -/
def sortRanked (le : α → α → Bool) : List α → List α
  | [] => []
  | x :: xs => insertRanked le x (sortRanked le xs)

/-- Modelled from the spec: scoring one candidate id — row `i` of the
Vector Index against the metadata record with id `i`, annotated with the
similarity of its vector to the query embedding. -/
def scoreCandidate (q : List ℚ) (st : Store (List ℚ)) (i : Nat) : Option RagMatch :=
  match st.index[i]?, st.metadata.find? (fun m => m.id == i) with
  | some v, some m =>
    some { id := i
           code := m.code
           name := m.name
           description := m.description
           similarity_score := similarity (l2dist q v) }
  | _, _ => none

/-- Modelled from the spec: `search_manual` of `backend/rag_retrieve.py`,
whose source is absent from the repository excerpt; design document §4.3.
Embed the query text (an embedding failure is fatal for the call);
candidate ids are the hinted category's partition, or every row id when
there is no restriction; score every candidate by L2 distance converted to
a similarity; drop candidates strictly below the threshold; sort best
first with ascending-id tie-break; truncate to `top_k`. -/
def search_manual (embedf : String → Option (List ℚ)) (st : Store (List ℚ))
    (query_text : String) (category_hint : Option String) (top_k : Nat)
    (threshold : ℚ) : Except String (List RagMatch) :=
  match embedf query_text with
  | none => .error "embedding unavailable"
  | some q =>
    let candidates : List Nat :=
      match category_hint with
      | some c => (lookupAssoc st.category_index c).getD []
      | none => List.range st.index.length
    let scored : List RagMatch := candidates.filterMap (scoreCandidate q st)
    let kept := scored.filter fun mt => threshold ≤ mt.similarity_score
    .ok ((sortRanked rankLE kept).take top_k)

/-- A concrete embedder for evaluation: fails exactly on the texts in the
list `bad`, and otherwise returns the length of the text as a
stand-in one-dimensional vector. -/
def testEmbed (bad : List String) : String → Option Nat := fun t =>
  if t ∈ bad then none else some t.length

/-! ## Concrete fixtures

Small concrete inputs, in the shape of the LG error-code CSV rows, used by
the closed evaluation theorems and witnesses below. -/

def recIE : ErrorRecord := ⟨"IE", "Water Inlet Error", "water is not entering the machine"⟩

def recUE : ErrorRecord := ⟨"UE", "Unbalanced Load", "the drum load is unbalanced"⟩

def recDE : ErrorRecord := ⟨"DE", "Drain Error", "the machine cannot drain"⟩

def recFE : ErrorRecord := ⟨"FE", "Overflow Error", "water level exceeded the limit"⟩

def recPE : ErrorRecord := ⟨"PE", "Pressure Sensor Error", "the pressure sensor is faulty"⟩

/-- An embedder that fails exactly on `recIE`. -/
def skipIE : String → Option Nat := testEmbed [format_error_text recIE]

/-- An embedder that fails exactly on `recDE`. -/
def skipDE : String → Option Nat := testEmbed [format_error_text recDE]

/-- An embedder that never fails. -/
def okEmbed : String → Option Nat := testEmbed []

/-- A store directory with no previous store. -/
def emptyDisk : DiskState Nat := ⟨none, none, none⟩

/-- A store directory holding a previously built store. -/
def prevDisk : DiskState Nat :=
  ⟨some [9], some [mkMetaRec 0 recUE],
   some [(CATEGORY_ERROR_CODES, [0]), (CATEGORY_SCHEMATICS, []), (CATEGORY_GENERAL, [])]⟩

/-- A one-record in-memory store. -/
def oneStore : Store Nat :=
  ⟨[3], [mkMetaRec 0 recIE],
   [(CATEGORY_ERROR_CODES, [0]), (CATEGORY_SCHEMATICS, []), (CATEGORY_GENERAL, [])]⟩

/-- Five input records, the shape of ingestion Scenario 5. -/
def fiveRecs : List ErrorRecord := [recIE, recUE, recDE, recFE, recPE]

/-- The store `ingest_error_codes skipDE fiveRecs` builds: four records,
the skipped record's enumerate index `2` missing from the ids. -/
def storeFour : Store Nat :=
  ⟨[(format_error_text recIE).length, (format_error_text recUE).length,
    (format_error_text recFE).length, (format_error_text recPE).length],
   [mkMetaRec 0 recIE, mkMetaRec 1 recUE, mkMetaRec 3 recFE, mkMetaRec 4 recPE],
   [(CATEGORY_ERROR_CODES, [0, 1, 3, 4]), (CATEGORY_SCHEMATICS, []),
    (CATEGORY_GENERAL, [])]⟩

/-- The store `ingest_error_codes okEmbed [recIE]` builds. -/
def storeIE : Store Nat :=
  ⟨[(format_error_text recIE).length], [mkMetaRec 0 recIE],
   [(CATEGORY_ERROR_CODES, [0]), (CATEGORY_SCHEMATICS, []), (CATEGORY_GENERAL, [])]⟩

/-- A loaded retrieval store in the shape of retrieval Scenario 1: two
ERROR_CODES records (ids 0, 1) and one SCHEMATICS record (id 2). -/
def store9 : Store (List ℚ) :=
  ⟨[[0, 0], [1, 0], [5, 5]],
   [mkMetaRec 0 recIE, mkMetaRec 1 recUE,
    ⟨2, CATEGORY_SCHEMATICS, "image", "SCH1", "Main Board",
     "board schematic", "Main Board - board schematic"⟩],
   [(CATEGORY_ERROR_CODES, [0, 1]), (CATEGORY_SCHEMATICS, [2]),
    (CATEGORY_GENERAL, [])]⟩

/-- A query embedder returning the zero vector. -/
def qEmbed : String → Option (List ℚ) := fun _ => some [0, 0]

/-- The matches `search_manual` returns on `store9` with hint ERROR_CODES,
`top_k = 3` and threshold `1/2`. -/
def ms9 : List RagMatch :=
  [⟨0, recIE.code, recIE.name, recIE.description, 1⟩,
   ⟨1, recUE.code, recUE.name, recUE.description, 1/2⟩]

/-! ## Lemmas about the router's regular expression

These connect the positional rendering of `\b[A-Z]{1,3}\d?\b` used by
`detect_intent` with the whole-word-token decomposition
`hasShapedWordToken`. -/

theorem rightBoundary_iff (b : List Char) :
    rightBoundary b = true ↔ ∀ c, b.head? = some c → isWordChar c = false := by
  cases b <;> simp [rightBoundary]

theorem digitTail_iff (s : List Char) :
    digitTail s = true ↔
      rightBoundary s = true ∨
        ∃ d rest, s = d :: rest ∧ isDigitChar d = true ∧ rightBoundary rest = true := by
  cases s with
  | nil => simp [digitTail]
  | cons d rest =>
    simp only [digitTail, Bool.or_eq_true, Bool.and_eq_true]
    constructor
    · rintro (h | ⟨h1, h2⟩)
      · exact Or.inl h
      · exact Or.inr ⟨d, rest, rfl, h1, h2⟩
    · rintro (h | ⟨d', rest', heq, h1, h2⟩)
      · exact Or.inl h
      · cases heq
        exact Or.inr ⟨h1, h2⟩

theorem isWordChar_of_upper {c : Char} (h : isUpperLetter c = true) :
    isWordChar c = true := by
  simp [isWordChar, h]

theorem isWordChar_of_digit {c : Char} (h : isDigitChar c = true) :
    isWordChar c = true := by
  simp [isWordChar, h]

/-- An error-code-shaped token is a nonempty run of word characters. -/
theorem tokenShaped_word {t : List Char} (h : tokenShaped t = true) :
    t ≠ [] ∧ t.all isWordChar = true := by
  match t with
  | [c1] =>
    simp only [tokenShaped] at h
    simp [isWordChar_of_upper h]
  | [c1, c2] =>
    simp only [tokenShaped, Bool.and_eq_true, Bool.or_eq_true] at h
    rcases h with ⟨h1, h2 | h2⟩ <;>
      simp [isWordChar_of_upper, isWordChar_of_digit, h1, h2,
        isWordChar_of_upper h1]
  | [c1, c2, c3] =>
    simp only [tokenShaped, Bool.and_eq_true, Bool.or_eq_true] at h
    rcases h with ⟨⟨h1, h2⟩, h3 | h3⟩ <;>
      simp [isWordChar_of_upper, isWordChar_of_digit, h1, h2, h3]
  | [c1, c2, c3, c4] =>
    simp only [tokenShaped, Bool.and_eq_true] at h
    obtain ⟨⟨⟨h1, h2⟩, h3⟩, h4⟩ := h
    simp [isWordChar_of_upper, isWordChar_of_digit, h1, h2, h3, h4]
  | [] => simp [tokenShaped] at h
  | c1 :: c2 :: c3 :: c4 :: c5 :: t' => simp [tokenShaped] at h

/-- The anchored pattern `[A-Z]{1,3}\d?\b` matches a prefix of `s` exactly
when `s` splits as a shaped token followed by a right word boundary. -/
theorem matchCore_iff (s : List Char) :
    matchCore s = true ↔
      ∃ t b, s = t ++ b ∧ tokenShaped t = true ∧ rightBoundary b = true := by
  constructor
  · intro h
    match s with
    | [] => simp [matchCore] at h
    | c1 :: r1 =>
      simp only [matchCore, Bool.and_eq_true, Bool.or_eq_true] at h
      obtain ⟨h1, hdt | hrest⟩ := h
      · rcases (digitTail_iff r1).mp hdt with hb | ⟨d, rest, rfl, hd, hb⟩
        · exact ⟨[c1], r1, rfl, by simp [tokenShaped, h1], hb⟩
        · exact ⟨[c1, d], rest, rfl, by simp [tokenShaped, h1, hd], hb⟩
      · match r1, hrest with
        | c2 :: r2, hrest =>
          simp only [Bool.and_eq_true, Bool.or_eq_true] at hrest
          obtain ⟨h2, hdt | hrest2⟩ := hrest
          · rcases (digitTail_iff r2).mp hdt with hb | ⟨d, rest, rfl, hd, hb⟩
            · exact ⟨[c1, c2], r2, rfl, by simp [tokenShaped, h1, h2], hb⟩
            · exact ⟨[c1, c2, d], rest, rfl, by simp [tokenShaped, h1, h2, hd], hb⟩
          · match r2, hrest2 with
            | c3 :: r3, hrest2 =>
              simp only [Bool.and_eq_true] at hrest2
              obtain ⟨h3, hdt⟩ := hrest2
              rcases (digitTail_iff r3).mp hdt with hb | ⟨d, rest, rfl, hd, hb⟩
              · exact ⟨[c1, c2, c3], r3, rfl, by simp [tokenShaped, h1, h2, h3], hb⟩
              · exact ⟨[c1, c2, c3, d], rest, rfl,
                  by simp [tokenShaped, h1, h2, h3, hd], hb⟩
  · rintro ⟨t, b, rfl, hshape, hb⟩
    have hdtb : digitTail b = true := by
      rw [digitTail_iff]; exact Or.inl hb
    match t with
    | [c1] =>
      simp only [tokenShaped] at hshape
      simp [matchCore, hshape, hdtb]
    | [c1, c2] =>
      simp only [tokenShaped, Bool.and_eq_true, Bool.or_eq_true] at hshape
      obtain ⟨h1, h2 | h2⟩ := hshape
      · simp [matchCore, List.cons_append, List.nil_append, h1, h2, hdtb]
      · have hdt2 : digitTail (c2 :: b) = true := by
          rw [digitTail_iff]; exact Or.inr ⟨c2, b, rfl, h2, hb⟩
        simp [matchCore, List.cons_append, List.nil_append, h1, hdt2]
    | [c1, c2, c3] =>
      simp only [tokenShaped, Bool.and_eq_true, Bool.or_eq_true] at hshape
      obtain ⟨⟨h1, h2⟩, h3 | h3⟩ := hshape
      · simp [matchCore, List.cons_append, List.nil_append, h1, h2, h3, hdtb]
      · have hdt3 : digitTail (c3 :: b) = true := by
          rw [digitTail_iff]; exact Or.inr ⟨c3, b, rfl, h3, hb⟩
        simp [matchCore, List.cons_append, List.nil_append, h1, h2, hdt3]
    | [c1, c2, c3, c4] =>
      simp only [tokenShaped, Bool.and_eq_true] at hshape
      obtain ⟨⟨⟨h1, h2⟩, h3⟩, h4⟩ := hshape
      have hdt4 : digitTail (c4 :: b) = true := by
        rw [digitTail_iff]; exact Or.inr ⟨c4, b, rfl, h4, hb⟩
      simp [matchCore, List.cons_append, List.nil_append, h1, h2, h3, hdt4]
    | [] => simp [tokenShaped] at hshape
    | c1 :: c2 :: c3 :: c4 :: c5 :: t' => simp [tokenShaped] at hshape

/-- Scanning from an arbitrary position: the pattern is found in `s` (with
`prev` the character just left of `s`) exactly when `s` splits around a
shaped token whose left context is empty with the boundary already
satisfied by `prev`, or ends in a non-word character. -/
theorem searchFrom_iff :
    ∀ (s : List Char) (prev : Option Char),
      searchFrom prev s = true ↔
        ∃ a t b, s = a ++ t ++ b ∧
          ((a = [] ∧ leftBoundary prev = true) ∨
            (∃ c, a.getLast? = some c ∧ isWordChar c = false)) ∧
          tokenShaped t = true ∧ rightBoundary b = true := by
  intro s
  induction s with
  | nil =>
    intro prev
    constructor
    · intro h
      simp [searchFrom, matchCore] at h
    · rintro ⟨a, t, b, heq, _, hshape, _⟩
      have ht : t = [] := by
        rcases List.append_eq_nil.mp heq.symm with ⟨h1, h2⟩
        exact (List.append_eq_nil.mp h1).2
      rw [ht] at hshape
      simp [tokenShaped] at hshape
  | cons c cs ih =>
    intro prev
    constructor
    · intro h
      simp only [searchFrom, Bool.or_eq_true, Bool.and_eq_true] at h
      rcases h with ⟨hlb, hmc⟩ | hrec
      · obtain ⟨t, b, heq, hshape, hb⟩ := (matchCore_iff (c :: cs)).mp hmc
        exact ⟨[], t, b, by simpa using heq, Or.inl ⟨rfl, hlb⟩, hshape, hb⟩
      · obtain ⟨a', t, b, heq, hlbok, hshape, hb⟩ := (ih (some c)).mp hrec
        refine ⟨c :: a', t, b, by simp [heq], ?_, hshape, hb⟩
        rcases hlbok with ⟨rfl, hlb'⟩ | ⟨c', hl', hw'⟩
        · refine Or.inr ⟨c, by simp, ?_⟩
          simpa [leftBoundary] using hlb'
        · have ha'ne : a' ≠ [] := by
            intro h0; rw [h0] at hl'; simp at hl'
          refine Or.inr ⟨c', ?_, hw'⟩
          cases a' with
          | nil => exact absurd rfl ha'ne
          | cons y ys => rw [← hl']; exact List.getLast?_cons_cons
    · rintro ⟨a, t, b, heq, hlbok, hshape, hb⟩
      rcases hlbok with ⟨rfl, hlb⟩ | ⟨c', hl', hw'⟩
      · have hmc : matchCore (t ++ b) = true :=
          (matchCore_iff (t ++ b)).mpr ⟨t, b, rfl, hshape, hb⟩
        simp only [List.nil_append] at heq
        rw [← heq] at hmc
        simp only [searchFrom, Bool.or_eq_true, Bool.and_eq_true]
        exact Or.inl ⟨hlb, hmc⟩
      · cases a with
        | nil => rw [List.getLast?_nil] at hl'; cases hl'
        | cons c0 a' =>
          have hc0 : c = c0 ∧ cs = a' ++ (t ++ b) := by
            simpa using heq
          simp only [searchFrom, Bool.or_eq_true, Bool.and_eq_true]
          refine Or.inr ((ih (some c)).mpr
            ⟨a', t, b, hc0.2.trans (List.append_assoc a' t b).symm, ?_, hshape, hb⟩)
          cases a' with
          | nil =>
            have hcc : c0 = c' := by simpa using hl'
            refine Or.inl ⟨rfl, ?_⟩
            simp [leftBoundary, hc0.1, hcc, hw']
          | cons y ys =>
            refine Or.inr ⟨c', ?_, hw'⟩
            rw [← hl']
            exact List.getLast?_cons_cons.symm

/-- The router's regular-expression check succeeds exactly when the text
contains a whole-word error-code-shaped token. -/
theorem errorCodeSearch_iff (s : List Char) :
    errorCodeSearch s = true ↔ hasShapedWordToken s := by
  unfold errorCodeSearch hasShapedWordToken
  rw [searchFrom_iff]
  constructor
  · rintro ⟨a, t, b, heq, hlbok, hshape, hb⟩
    refine ⟨a, t, b, heq, ?_, (rightBoundary_iff b).mp hb, hshape⟩
    rcases hlbok with ⟨rfl, _⟩ | ⟨c', hl', hw'⟩
    · intro c hc; rw [List.getLast?_nil] at hc; cases hc
    · intro c hc; rw [hl'] at hc; cases hc; exact hw'
  · rintro ⟨a, t, b, heq, ha, hb, hshape⟩
    refine ⟨a, t, b, heq, ?_, hshape, (rightBoundary_iff b).mpr hb⟩
    cases a with
    | nil => exact Or.inl ⟨rfl, rfl⟩
    | cons c0 a' =>
      obtain ⟨c', hc'⟩ := Option.isSome_iff_exists.mp
        (List.getLast?_isSome.mpr (List.cons_ne_nil c0 a'))
      exact Or.inr ⟨c', hc', ha c' hc'⟩

/-! ## Lemmas about the word tokenizer -/

theorem wordTokens_nil : wordTokens [] = [] := by
  rw [wordTokens]

theorem wordTokens_cons_word {c : Char} {cs : List Char} (h : isWordChar c = true) :
    wordTokens (c :: cs) =
      (c :: cs.takeWhile isWordChar) :: wordTokens (cs.dropWhile isWordChar) := by
  rw [wordTokens]
  simp [h]

theorem wordTokens_cons_nonword {c : Char} {cs : List Char} (h : isWordChar c = false) :
    wordTokens (c :: cs) = wordTokens cs := by
  rw [wordTokens]
  simp [h]

/-- The function `takeWhile` passes over a block that satisfies the
predicate. -/
theorem takeWhile_append_all {p : Char → Bool} :
    ∀ {t : List Char}, t.all p = true →
      ∀ b, (t ++ b).takeWhile p = t ++ b.takeWhile p := by
  intro t
  induction t with
  | nil => intro _ b; simp
  | cons x xs ih =>
    intro h b
    simp only [List.all_cons, Bool.and_eq_true] at h
    simp [List.takeWhile_cons_of_pos h.1, ih h.2 b]

/-- The function `takeWhile` stops immediately at a failing head. -/
theorem takeWhile_nil_of_head {p : Char → Bool} {b : List Char}
    (h : ∀ c, b.head? = some c → p c = false) : b.takeWhile p = [] := by
  cases b with
  | nil => rfl
  | cons x xs =>
    have hx : ¬ p x = true := by simp [h x rfl]
    simp [List.takeWhile_cons_of_neg hx]

/-- The head of a `dropWhile` result fails the predicate. -/
theorem head_dropWhile_false {p : Char → Bool} :
    ∀ (l : List Char) (c : Char), (l.dropWhile p).head? = some c → p c = false := by
  intro l
  induction l with
  | nil => intro c hc; simp [List.dropWhile] at hc
  | cons x xs ih =>
    intro c hc
    by_cases hx : p x
    · rw [List.dropWhile_cons_of_pos hx] at hc
      exact ih c hc
    · rw [List.dropWhile_cons_of_neg hx] at hc
      cases hc
      simpa using hx

/-- When `l` ends in a character failing the predicate, `dropWhile` stops
inside `l`, so a suffix appended after `l` passes through unchanged. -/
theorem dropWhile_append_fixed {p : Char → Bool} :
    ∀ (l : List Char) (c : Char), l.getLast? = some c → p c = false →
      ∀ x, (l ++ x).dropWhile p = l.dropWhile p ++ x := by
  intro l
  induction l with
  | nil => intro c hc; simp at hc
  | cons y l' ih =>
    intro c hc hpc x
    cases l' with
    | nil =>
      have hyc : y = c := by simpa using hc
      subst hyc
      have hny : ¬ p y = true := by simp [hpc]
      simp [List.dropWhile_cons_of_neg hny]
    | cons z l'' =>
      have hc' : (z :: l'').getLast? = some c := by
        rw [← hc]; exact List.getLast?_cons_cons.symm
      by_cases hy : p y
      · simp only [List.cons_append, List.dropWhile_cons_of_pos hy]
        exact ih c hc' hpc x
      · simp [List.dropWhile_cons_of_neg hy]

/-- The function `dropWhile` keeps the last element when that element
fails the predicate. -/
theorem dropWhile_getLast {p : Char → Bool} :
    ∀ (l : List Char) (c : Char), l.getLast? = some c → p c = false →
      (l.dropWhile p).getLast? = some c := by
  intro l
  induction l with
  | nil => intro c hc; simp at hc
  | cons y l' ih =>
    intro c hc hpc
    cases l' with
    | nil =>
      have hyc : y = c := by simpa using hc
      subst hyc
      have hny : ¬ p y = true := by simp [hpc]
      simp [List.dropWhile_cons_of_neg hny]
    | cons z l'' =>
      have hc' : (z :: l'').getLast? = some c := by
        rw [← hc]; exact List.getLast?_cons_cons.symm
      by_cases hy : p y
      · rw [List.dropWhile_cons_of_pos hy]
        exact ih c hc' hpc
      · rw [List.dropWhile_cons_of_neg hy]
        rw [← hc']
        exact List.getLast?_cons_cons

/-- Tokenizer soundness: every token produced by `wordTokens` occurs in the
string as a maximal run of word characters — flanked by a non-word
character or a string end on both sides. -/
theorem wordTokens_sound :
    ∀ (n : Nat) (s : List Char), s.length ≤ n →
      ∀ t ∈ wordTokens s,
        ∃ a b, s = a ++ t ++ b ∧
          (∀ c, a.getLast? = some c → isWordChar c = false) ∧
          (∀ c, b.head? = some c → isWordChar c = false) ∧
          t ≠ [] ∧ t.all isWordChar = true := by
  intro n
  induction n with
  | zero =>
    intro s hs t ht
    have : s = [] := List.length_eq_zero.mp (Nat.le_zero.mp hs)
    subst this
    rw [wordTokens_nil] at ht
    simp at ht
  | succ n ih =>
    intro s hs t ht
    cases s with
    | nil =>
      rw [wordTokens_nil] at ht
      simp at ht
    | cons c cs =>
      have hcs : cs.length ≤ n := Nat.le_of_succ_le_succ (by simpa using hs)
      by_cases hw : isWordChar c = true
      · rw [wordTokens_cons_word hw] at ht
        rcases List.mem_cons.mp ht with rfl | ht'
        · refine ⟨[], cs.dropWhile isWordChar, ?_, by simp, ?_, by simp, ?_⟩
          · simp [List.takeWhile_append_dropWhile]
          · exact fun c' hc' => head_dropWhile_false cs c' hc'
          · simp only [List.all_cons, hw, Bool.true_and]
            exact List.all_eq_true.mpr fun x hx => List.mem_takeWhile_imp hx
        · have hdlen : (cs.dropWhile isWordChar).length ≤ n :=
            le_trans (List.dropWhile_sublist _).length_le hcs
          obtain ⟨a', b, heq, ha', hb, hne, hall⟩ := ih _ hdlen t ht'
          have ha'ne : a' ≠ [] := by
            intro h0
            rw [h0, List.nil_append] at heq
            cases t with
            | nil => exact hne rfl
            | cons t0 ts =>
              have hw0 : isWordChar t0 = false :=
                head_dropWhile_false cs t0 (by rw [heq]; simp)
              have : isWordChar t0 = true := by
                have := hall
                simp only [List.all_cons, Bool.and_eq_true] at this
                exact this.1
              rw [this] at hw0
              cases hw0
          refine ⟨c :: cs.takeWhile isWordChar ++ a', b, ?_, ?_, hb, hne, hall⟩
          · have h2 : cs.takeWhile isWordChar ++ (a' ++ (t ++ b)) = cs := by
              rw [← List.append_assoc a' t b, ← heq]
              exact List.takeWhile_append_dropWhile _ _
            simp only [List.cons_append, List.append_assoc]
            rw [h2]
          · intro c' hc'
            rw [List.getLast?_append_of_ne_nil _ ha'ne] at hc'
            exact ha' c' hc'
      · have hw' : isWordChar c = false := by
          simpa using hw
        rw [wordTokens_cons_nonword hw'] at ht
        obtain ⟨a', b, heq, ha', hb, hne, hall⟩ := ih cs hcs t ht
        refine ⟨c :: a', b, by simp [heq], ?_, hb, hne, hall⟩
        intro c' hc'
        cases a' with
        | nil =>
          have : c = c' := by simpa using hc'
          rw [← this]
          exact hw'
        | cons y ys =>
          rw [List.getLast?_cons_cons] at hc'
          exact ha' c' hc'

/-- Tokenizer completeness: a nonempty run of word characters flanked by
non-word characters (or string ends) is one of the tokens `wordTokens`
produces. -/
theorem wordTokens_complete :
    ∀ (n : Nat) (s a t b : List Char), s.length ≤ n → s = a ++ t ++ b →
      (∀ c, a.getLast? = some c → isWordChar c = false) →
      (∀ c, b.head? = some c → isWordChar c = false) →
      t ≠ [] → t.all isWordChar = true →
      t ∈ wordTokens s := by
  intro n
  induction n with
  | zero =>
    intro s a t b hs heq _ _ htne _
    have : s = [] := List.length_eq_zero.mp (Nat.le_zero.mp hs)
    subst this
    rcases List.append_eq_nil.mp heq.symm with ⟨h1, _⟩
    exact absurd (List.append_eq_nil.mp h1).2 htne
  | succ n ih =>
    intro s a t b hs heq ha hb htne hall
    cases a with
    | nil =>
      cases t with
      | nil => exact absurd rfl htne
      | cons c t' =>
        simp only [List.nil_append, List.cons_append] at heq
        subst heq
        simp only [List.all_cons, Bool.and_eq_true] at hall
        rw [wordTokens_cons_word hall.1]
        have hrun : (t' ++ b).takeWhile isWordChar = t' := by
          rw [takeWhile_append_all hall.2 b, takeWhile_nil_of_head hb,
            List.append_nil]
        rw [hrun]
        exact List.mem_cons_self _ _
    | cons c a' =>
      simp only [List.cons_append] at heq
      subst heq
      have hlen : (a' ++ t ++ b).length ≤ n := Nat.le_of_succ_le_succ (by simpa using hs)
      by_cases hw : isWordChar c = true
      · have ha'ne : a' ≠ [] := by
          intro h0
          have := ha c (by simp [h0])
          rw [this] at hw
          cases hw
        obtain ⟨clast, hcl⟩ := Option.isSome_iff_exists.mp
          (List.getLast?_isSome.mpr ha'ne)
        have hcl' : (c :: a').getLast? = some clast := by
          cases a' with
          | nil => exact absurd rfl ha'ne
          | cons y ys => rw [List.getLast?_cons_cons]; exact hcl
        have hclw : isWordChar clast = false := ha clast hcl'
        rw [wordTokens_cons_word hw]
        apply List.mem_cons_of_mem
        have hdrop : ((a' ++ t ++ b).dropWhile isWordChar) =
            a'.dropWhile isWordChar ++ (t ++ b) := by
          rw [List.append_assoc]
          exact dropWhile_append_fixed a' clast hcl hclw (t ++ b)
        rw [hdrop]
        apply ih _ (a'.dropWhile isWordChar) t b _ (by rw [List.append_assoc]) _ hb htne hall
        · calc (a'.dropWhile isWordChar ++ (t ++ b)).length
              ≤ (a' ++ (t ++ b)).length := by
                simp only [List.length_append]
                exact Nat.add_le_add_right (List.dropWhile_sublist _).length_le _
            _ = (a' ++ t ++ b).length := by rw [List.append_assoc]
            _ ≤ n := hlen
        · intro c' hc'
          have := dropWhile_getLast a' clast hcl hclw
          rw [this] at hc'
          cases hc'
          exact hclw
      · have hw' : isWordChar c = false := by simpa using hw
        rw [wordTokens_cons_nonword hw']
        apply ih (a' ++ t ++ b) a' t b hlen rfl _ hb htne hall
        intro c' hc'
        apply ha c'
        cases a' with
        | nil => simp at hc'
        | cons y ys => rw [List.getLast?_cons_cons]; exact hc'

/-- The tokenizer reading of the rule agrees with the whole-word
decomposition. -/
theorem any_tokenShaped_iff (s : List Char) :
    (wordTokens s).any tokenShaped = true ↔ hasShapedWordToken s := by
  constructor
  · intro h
    obtain ⟨t, ht, hshape⟩ := List.any_eq_true.mp h
    obtain ⟨a, b, heq, ha, hb, _, _⟩ := wordTokens_sound s.length s le_rfl t ht
    exact ⟨a, t, b, heq, ha, hb, hshape⟩
  · rintro ⟨a, t, b, heq, ha, hb, hshape⟩
    obtain ⟨htne, hall⟩ := tokenShaped_word hshape
    exact List.any_eq_true.mpr
      ⟨t, wordTokens_complete s.length s a t b le_rfl heq ha hb htne hall, hshape⟩

/-- The two readings of the error-code rule coincide on every string. -/
theorem errorCodeSearch_eq_any_tokenShaped (s : List Char) :
    errorCodeSearch s = (wordTokens s).any tokenShaped := by
  cases h1 : errorCodeSearch s
  · cases h2 : (wordTokens s).any tokenShaped
    · rfl
    · exact absurd ((errorCodeSearch_iff s).mpr ((any_tokenShaped_iff s).mp h2))
        (by simp [h1])
  · exact ((any_tokenShaped_iff s).mpr ((errorCodeSearch_iff s).mp h1)).symm

/-! ## Lemmas about the ingestion loop -/

/-- The loop appends one metadata entry per successful record, in input
order: projecting to the raw fields, the metadata list is exactly the list
of records whose embedding succeeded. -/
theorem ingestLoop_metadata_proj {V : Type} (embedf : String → Option V) :
    ∀ (errs : List ErrorRecord) (n : Nat),
      (ingestLoop embedf n errs).2.1.map (fun m => (m.code, m.name, m.description)) =
        (errs.filter fun r => (embedf (format_error_text r)).isSome).map
          (fun r => (r.code, r.name, r.description)) := by
  intro errs
  induction errs with
  | nil => intro n; simp [ingestLoop]
  | cons r rest ih =>
    intro n
    cases h : embedf (format_error_text r) with
    | none => simp [ingestLoop, h, List.filter_cons, ih]
    | some v => simp [ingestLoop, h, List.filter_cons, ih, mkMetaRec]

/-- The loop appends one embedding per successful record: the embeddings
list and the metadata list have the same length. -/
theorem ingestLoop_lengths {V : Type} (embedf : String → Option V) :
    ∀ (errs : List ErrorRecord) (n : Nat),
      (ingestLoop embedf n errs).1.length = (ingestLoop embedf n errs).2.1.length := by
  intro errs
  induction errs with
  | nil => intro n; simp [ingestLoop]
  | cons r rest ih =>
    intro n
    cases h : embedf (format_error_text r) with
    | none => simp [ingestLoop, h, ih]
    | some v => simp [ingestLoop, h, ih]

/-- Every metadata entry the loop builds carries the fixed category
`ERROR_CODES` and content type `"text"`. -/
theorem ingestLoop_meta_fields {V : Type} (embedf : String → Option V) :
    ∀ (errs : List ErrorRecord) (n : Nat),
      ((ingestLoop embedf n errs).2.1).all
        (fun m => m.category == CATEGORY_ERROR_CODES && m.type == "text") = true := by
  intro errs
  induction errs with
  | nil => intro n; simp [ingestLoop]
  | cons r rest ih =>
    intro n
    cases h : embedf (format_error_text r) with
    | none => simp [ingestLoop, h, ih]
    | some v => simp [ingestLoop, h, ih, mkMetaRec]

/-- When every record's embedding fails, the loop produces nothing. -/
theorem ingestLoop_all_fail {V : Type} (embedf : String → Option V) :
    ∀ (errs : List ErrorRecord) (n : Nat),
      errs.all (fun r => (embedf (format_error_text r)).isNone) = true →
      ingestLoop embedf n errs = ([], [], []) := by
  intro errs
  induction errs with
  | nil => intro n _; simp [ingestLoop]
  | cons r rest ih =>
    intro n hall
    simp only [List.all_cons, Bool.and_eq_true] at hall
    cases h : embedf (format_error_text r) with
    | none => simp [ingestLoop, h, ih (n + 1) hall.2]
    | some v => rw [h] at hall; simp at hall

/-! ## Claim theorems: ingestion -/

/-- C1.  The code assigns each successful record the enumerate index of its
input position, not the next dense id: with two inputs whose first
embedding fails, the built store's metadata ids are `[1]` while the vector
index has exactly one row, so the ids are not `0..N-1` and row `0` does not
carry id `0`. -/
theorem ids_not_dense_after_skip :
    (ingest_error_codes skipIE [recIE, recUE]).map
        (fun st => (st.metadata.map MetaRec.id, st.index.length)) =
      .ok ([1], 1) ∧
    ¬ ([1] = List.range 1) := by
  exact ⟨rfl, by decide⟩

/-- C2.  With the same failing input, the union of the category partitions
is `{1}` while the vector index row range is `{0}`: row `0` has no id in
any partition. -/
theorem partition_union_misses_row :
    (ingest_error_codes skipIE [recIE, recUE]).map
        (fun st => ((st.category_index.map Prod.snd).flatten, st.index.length)) =
      .ok ([1], 1) ∧
    ¬ ((0 : Nat) ∈ [(1 : Nat)]) := by
  exact ⟨rfl, by decide⟩

/-- C3 counterexample.  Saving is not atomic: starting from an empty store
directory, the state after the first of the three writes is neither the old
directory nor the fully saved one. -/
theorem save_not_atomic :
    ¬ (∀ d' ∈ saveStates emptyDisk oneStore,
        d' = emptyDisk ∨ d' = saveStore emptyDisk oneStore) := by
  decide

/-- C3 as amended.  The save section performs three sequential in-place
writes — vector index, then metadata, then category index; the final state
holds all three new artifacts, but the state observable right after the
first write has the new vector index with the directory's old metadata and
category files. -/
theorem save_is_sequential_in_place {V : Type} (d : DiskState V) (st : Store V) :
    (saveStore d st).index_file = some st.index ∧
    (saveStore d st).metadata_file = some st.metadata ∧
    (saveStore d st).category_index_file = some st.category_index ∧
    ∃ d' ∈ saveStates d st,
      d'.index_file = some st.index ∧
      d'.metadata_file = d.metadata_file ∧
      d'.category_index_file = d.category_index_file := by
  refine ⟨rfl, rfl, rfl, write_index_file d st.index, ?_, rfl, rfl, rfl⟩
  simp [saveStates]

/-- C6.  A per-record embedding failure is absorbed: the built store's
metadata is exactly the successfully embedded records, in order, and the
vector index has one row per metadata entry. -/
theorem store_is_exactly_successes {V : Type} (embedf : String → Option V)
    (errs : List ErrorRecord) (st : Store V)
    (h : ingest_error_codes embedf errs = .ok st) :
    st.metadata.map (fun m => (m.code, m.name, m.description)) =
      (errs.filter fun r => (embedf (format_error_text r)).isSome).map
        (fun r => (r.code, r.name, r.description)) ∧
    st.index.length = st.metadata.length := by
  unfold ingest_error_codes at h
  by_cases he : (ingestLoop embedf 0 errs).1.isEmpty
  · simp [he] at h
  · simp only [he] at h
    simp only [Bool.false_eq_true, if_false, Except.ok.injEq] at h
    subst h
    exact ⟨ingestLoop_metadata_proj embedf errs 0, ingestLoop_lengths embedf errs 0⟩

/-- C6 witness: five inputs with one embedding failure build a store of
exactly the four successful records. -/
theorem store_is_exactly_successes_witness :
    (storeFour.metadata.map (fun m => (m.code, m.name, m.description)) =
      (fiveRecs.filter fun r => ((skipDE (format_error_text r)).isSome)).map
        (fun r => (r.code, r.name, r.description)) ∧
     storeFour.index.length = storeFour.metadata.length) ∧
    storeFour.metadata.length = 4 := by
  exact ⟨store_is_exactly_successes skipDE fiveRecs storeFour rfl, by decide⟩

/-- C7.  When no record embeds successfully — in particular on empty input —
ingestion fails with the build-level `ValueError` and performs none of the
three writes: the store directory is returned unchanged. -/
theorem zero_success_writes_nothing {V : Type} (embedf : String → Option V)
    (errs : List ErrorRecord) (d : DiskState V)
    (h : errs.all (fun r => (embedf (format_error_text r)).isNone) = true) :
    runIngest embedf errs d = (d, .error "No embeddings were generated successfully") := by
  unfold runIngest ingest_error_codes
  rw [ingestLoop_all_fail embedf errs 0 h]
  rfl

/-- C7 witness: a one-record input whose embedding fails (and, a fortiori,
the empty input) leaves the previously existing store untouched. -/
theorem zero_success_writes_nothing_witness :
    ([recIE].all (fun r => ((skipIE (format_error_text r)).isNone)) = true) ∧
    runIngest skipIE [recIE] prevDisk =
      (prevDisk, .error "No embeddings were generated successfully") := by
  exact ⟨by decide, zero_success_writes_nothing skipIE [recIE] prevDisk (by decide)⟩

/-- C8.  Every built store tags every metadata record with category
`ERROR_CODES` and content type `"text"`, and its category index carries the
`SCHEMATICS` and `GENERAL` partitions as empty lists. -/
theorem all_records_error_codes {V : Type} (embedf : String → Option V)
    (errs : List ErrorRecord) (st : Store V)
    (h : ingest_error_codes embedf errs = .ok st) :
    st.metadata.all (fun m => m.category == CATEGORY_ERROR_CODES && m.type == "text") = true ∧
    lookupAssoc st.category_index CATEGORY_SCHEMATICS = some [] ∧
    lookupAssoc st.category_index CATEGORY_GENERAL = some [] := by
  unfold ingest_error_codes at h
  by_cases he : (ingestLoop embedf 0 errs).1.isEmpty
  · simp [he] at h
  · simp only [he] at h
    simp only [Bool.false_eq_true, if_false, Except.ok.injEq] at h
    subst h
    refine ⟨ingestLoop_meta_fields embedf errs 0, ?_, ?_⟩ <;>
      simp [lookupAssoc, CATEGORY_ERROR_CODES, CATEGORY_SCHEMATICS, CATEGORY_GENERAL]

/-- C8 witness at a one-record build. -/
theorem all_records_error_codes_witness :
    storeIE.metadata.all
        (fun m => m.category == CATEGORY_ERROR_CODES && m.type == "text") = true ∧
    lookupAssoc storeIE.category_index CATEGORY_SCHEMATICS = some [] ∧
    lookupAssoc storeIE.category_index CATEGORY_GENERAL = some [] := by
  exact all_records_error_codes okEmbed [recIE] storeIE rfl

/-! ## Claim theorems: the intent router -/

/-- C4.  With an image attached the router returns SCHEMATICS for every
query text, whatever the text contains. -/
theorem image_always_schematics (text : List Char) :
    detect_intent text true = some CATEGORY_SCHEMATICS := rfl

/-- C5.  With no image, the router applies the remaining rules in the fixed
order the design document states: uppercase the text and look for a
whole-word token of 1–3 uppercase letters with an optional trailing digit
(ERROR_CODES); else scan the lowercased text for the keywords
`error, code, display, showing, flashing` as substrings (ERROR_CODES); else
no restriction.  `route_spec` is that wording verbatim, with the token rule
as an explicit tokenizer over maximal word runs; it agrees with the
source's regular-expression router on every text. -/
theorem router_matches_spec_cascade (text : List Char) :
    detect_intent text false = route_spec text false := by
  unfold detect_intent route_spec
  rw [errorCodeSearch_eq_any_tokenShaped]

/-- C10.  A text with no error code and no error keyword, but with an
ordinary one-to-three-letter word ("my", "is"), is routed to ERROR_CODES:
uppercasing makes every short word match the error-code pattern as a whole
word.  The second conjunct checks that no keyword of the keyword rule
occurs in the text. -/
theorem short_word_false_positive :
    detect_intent "my washer is loud".toList false = some CATEGORY_ERROR_CODES ∧
    errorKeywords.any
        (fun kw => containsSub kw ("my washer is loud".toList.map Char.toLower)) = false := by
  decide

/-! ## Claim theorems: the retrieval search -/

theorem mem_insertRanked {α : Type} (le : α → α → Bool) (x : α) :
    ∀ (l : List α) (a : α), a ∈ insertRanked le x l → a = x ∨ a ∈ l := by
  intro l
  induction l with
  | nil => intro a ha; simpa [insertRanked] using ha
  | cons y ys ih =>
    intro a ha
    by_cases hle : le x y
    · simp only [insertRanked, if_pos hle] at ha
      rcases List.mem_cons.mp ha with rfl | ha'
      · exact Or.inl rfl
      · exact Or.inr ha'
    · simp only [insertRanked, if_neg hle] at ha
      rcases List.mem_cons.mp ha with rfl | ha'
      · exact Or.inr (List.mem_cons_self _ _)
      · rcases ih a ha' with rfl | h
        · exact Or.inl rfl
        · exact Or.inr (List.mem_cons_of_mem _ h)

theorem mem_sortRanked {α : Type} (le : α → α → Bool) :
    ∀ (l : List α) (a : α), a ∈ sortRanked le l → a ∈ l := by
  intro l
  induction l with
  | nil => intro a ha; simp [sortRanked] at ha
  | cons y ys ih =>
    intro a ha
    simp only [sortRanked] at ha
    rcases mem_insertRanked le y _ a ha with rfl | h
    · exact List.mem_cons_self _ _
    · exact List.mem_cons_of_mem _ (ih a h)

/-- C9.  When the search is hinted with category `c`, every returned match
carries an id from `c`'s partition in the category index: records of other
categories never appear. -/
theorem hinted_matches_in_partition (embedf : String → Option (List ℚ))
    (st : Store (List ℚ)) (q : String) (c : String) (top_k : Nat) (threshold : ℚ)
    (ms : List RagMatch)
    (h : search_manual embedf st q (some c) top_k threshold = .ok ms) :
    ms.all
      (fun m => ((lookupAssoc st.category_index c).getD []).contains m.id) = true := by
  cases hq : embedf q with
  | none => rw [search_manual, hq] at h; cases h
  | some qv =>
    rw [search_manual, hq] at h
    simp only [Except.ok.injEq] at h
    apply List.all_eq_true.mpr
    intro m hm
    rw [← h] at hm
    have hm1 := List.mem_of_mem_take hm
    have hm2 := mem_sortRanked rankLE _ m hm1
    have hm3 := List.mem_of_mem_filter hm2
    obtain ⟨i, hi, hf⟩ := List.mem_filterMap.mp hm3
    suffices hid : m.id = i by
      rw [hid]
      exact List.elem_eq_true_of_mem hi
    unfold scoreCandidate at hf
    cases h1 : st.index[i]? <;> rw [h1] at hf
    · cases hf
    · cases h2 : st.metadata.find? (fun mm => mm.id == i) <;> rw [h2] at hf
      · cases hf
      · cases hf
        rfl

/-- C9 witness: on the Scenario-1 store with hint ERROR_CODES, both
returned matches have ids in the ERROR_CODES partition `[0, 1]`; the
SCHEMATICS record (id 2) does not appear. -/
theorem hinted_matches_in_partition_witness :
    ms9.all
      (fun m =>
        ((lookupAssoc store9.category_index CATEGORY_ERROR_CODES).getD []).contains
          m.id) = true :=
  hinted_matches_in_partition qEmbed store9 "IE flashing" CATEGORY_ERROR_CODES 3
    (1/2) ms9 (by
      have h0 : scoreCandidate [0, 0] store9 0 =
          some ⟨0, recIE.code, recIE.name, recIE.description,
                similarity (l2dist [0, 0] [0, 0])⟩ := rfl
      have h1 : scoreCandidate [0, 0] store9 1 =
          some ⟨1, recUE.code, recUE.name, recUE.description,
                similarity (l2dist [0, 0] [1, 0])⟩ := rfl
      have hs0 : similarity (l2dist [0, 0] [0, 0]) = 1 := by
        norm_num [similarity, l2dist]
      have hs1 : similarity (l2dist [0, 0] [1, 0]) = 1/2 := by
        norm_num [similarity, l2dist]
      rw [hs0] at h0
      rw [hs1] at h1
      have hl : lookupAssoc store9.category_index CATEGORY_ERROR_CODES =
          some [0, 1] := rfl
      norm_num [search_manual, qEmbed, ms9, hl, h0, h1,
        sortRanked, insertRanked, rankLE,
        List.filterMap_cons, List.filter_cons, List.take_succ_cons,
        decide_eq_true_eq])

end Mistri
